import Mathlib

/-!
Verification of the matrix-descriptor pipeline of the `dscribe` repository.

The repository provides an interaction-kernel layer (the Sine matrix,
`src/describe/descriptors/sinematrix.py`) and a matrix-descriptor engine
(padding, permutation handling, flattening, validation).  The kernel is
embedded below directly from its source.  The engine class
`MatrixDescriptor` itself is not among the available source files (only its
regression tests, `src/regtests/coulombmatrix.py`, are), so the engine is
modelled from the specification and from the behaviour its regression tests
demand; every such definition is marked `Modelled from the spec`.

All numeric arrays are embedded over `ℝ`; machine floating point is
idealised as real arithmetic.  A matrix is a curried function
`Fin n → Fin m → ℝ`, and the `N × N × 3` displacement tensor of a structure
is `Fin N → Fin N → Fin 3 → ℝ`.
-/

namespace Dscribe

/-! ## Sine-matrix interaction kernel

Embedded from `SineMatrix.get_matrix` in
`src/describe/descriptors/sinematrix.py`.  The structure accessors
`get_cell`, `get_cell_inverse`, `get_displacement_tensor` and
`get_initial_charges` become explicit arguments `B`, `Binv`, `D` and `q`.
-/

/-- Source line `arg_to_sin = np.pi * np.dot(diff_tensor, B_inv)`:
the tensor contraction `(D · B⁻¹)` scaled by `π`, elementwise. -/
noncomputable def argToSin (N : ℕ) (Binv : Fin 3 → Fin 3 → ℝ)
    (D : Fin N → Fin N → Fin 3 → ℝ) (i j : Fin N) (k : Fin 3) : ℝ :=
  Real.pi * (∑ l, D i j l * Binv l k)

/-- Source expression `np.dot(np.sin(arg_to_sin)**2, B)`: the elementwise
sine-squared of `argToSin`, re-expressed in Cartesian units via `B`. -/
noncomputable def sinSqB (N : ℕ) (B Binv : Fin 3 → Fin 3 → ℝ)
    (D : Fin N → Fin N → Fin 3 → ℝ) (i j : Fin N) (k : Fin 3) : ℝ :=
  ∑ l, (Real.sin (argToSin N Binv D i j l)) ^ 2 * B l k

/-- Source line `phi = np.linalg.norm(np.dot(np.sin(arg_to_sin)**2, B),
axis=2)`: the Euclidean norm over the three spatial components. -/
noncomputable def phi (N : ℕ) (B Binv : Fin 3 → Fin 3 → ℝ)
    (D : Fin N → Fin N → Fin 3 → ℝ) (i j : Fin N) : ℝ :=
  Real.sqrt (∑ k, (sinSqB N B Binv D i j k) ^ 2)

namespace SineMatrix

/-- Embedding of `SineMatrix.get_matrix`.  The source then computes
`phi = np.reciprocal(phi)` (with the divide warning suppressed),
`np.fill_diagonal(phi, 0)`, `smat = qiqj * phi`, and finally overwrites the
diagonal with `np.fill_diagonal(smat, 0.5 * q ** 2.4)`.  In this `ℝ`
embedding `x⁻¹` takes the value `0` at `x = 0` where NumPy would produce
`inf`; the diagonal, the only place this occurs for physical inputs, is
zeroed before use and then unconditionally overwritten, exactly as in the
source. -/
noncomputable def get_matrix (N : ℕ) (q : Fin N → ℝ) (B Binv : Fin 3 → Fin 3 → ℝ)
    (D : Fin N → Fin N → Fin 3 → ℝ) : Fin N → Fin N → ℝ :=
  let phiRecip : Fin N → Fin N → ℝ :=
    fun i j => if i = j then 0 else (phi N B Binv D i j)⁻¹
  let smat : Fin N → Fin N → ℝ := fun i j => (q i * q j) * phiRecip i j
  fun i j => if i = j then 0.5 * q i ^ (2.4 : ℝ) else smat i j

end SineMatrix

/-! ## Matrix descriptor engine

The engine class `MatrixDescriptor` (construction-time validation, `create`,
`sort`, `get_number_of_features`) is code of this repository that is not
among the available source files; only its regression tests
(`src/regtests/coulombmatrix.py`) and the `SineMatrix` subclass are.  The
definitions in this section are therefore modelled from the spec, as noted
on each one.  The engine is kernel-generic: `create` receives the raw
interaction matrix produced by the injected kernel for the structure, plus
the noise vector drawn by the `random` strategy (the spec requires the
randomness source to be dependency-injected). -/

/-- Modelled from the spec: the four recognized permutation strategies. -/
inductive Permutation where
  | none
  | sorted_l2
  | eigenspectrum
  | random
deriving DecidableEq

/-- Modelled from the spec: the two error kinds of the error taxonomy,
`ConfigurationError` and `SizeError`. -/
inductive DescribeError where
  | configuration
  | size
deriving DecidableEq

/-- Modelled from the spec: the immutable configuration fixed at
construction. -/
structure Config where
  n_atoms_max : ℕ
  permutation : Permutation
  flatten : Bool
  sigma : Option ℝ

/-- Modelled from the spec: recognition of the `permutation` string
argument of the constructor. -/
def parsePermutation (s : String) : Option Permutation :=
  if s = "none" then some Permutation.none
  else if s = "sorted_l2" then some Permutation.sorted_l2
  else if s = "eigenspectrum" then some Permutation.eigenspectrum
  else if s = "random" then some Permutation.random
  else Option.none

/-- Modelled from the spec: eager construction-time validation of the
engine configuration.  An unrecognized permutation value, a non-positive
`n_atoms_max`, a missing `sigma` under `random`, or a `sigma` supplied
under any other strategy, all fail with `ConfigurationError`. -/
noncomputable def mkDescriptor (n_atoms_max : ℤ) (permutation : String)
    (flatten : Bool) (sigma : Option ℝ) : Except DescribeError Config :=
  match parsePermutation permutation with
  | Option.none => .error .configuration
  | some p =>
    if n_atoms_max ≤ 0 then .error .configuration
    else
      match p, sigma with
      | .random, Option.none => .error .configuration
      | .random, some s =>
          if 0 < s then .ok ⟨n_atoms_max.toNat, p, flatten, some s⟩
          else .error .configuration
      | _, some _ => .error .configuration
      | _, Option.none => .ok ⟨n_atoms_max.toNat, p, flatten, Option.none⟩

/-- L2 norm of row `i` of a matrix. -/
noncomputable def rowNorm {n m : ℕ} (M : Fin n → Fin m → ℝ) (i : Fin n) : ℝ :=
  Real.sqrt (∑ j, M i j ^ 2)

/-- Modelled from the spec: the index permutation that sorts by descending
key, ties broken by ascending original index (a stable descending sort).
`Tuple.sort` on the negated key is exactly this permutation. -/
noncomputable def sortPerm {n : ℕ} (r : Fin n → ℝ) : Equiv.Perm (Fin n) :=
  Tuple.sort (fun i => -(r i))

/-- Modelled from the spec: the standalone `sort` operation — permute rows
and columns simultaneously by descending L2 row norm. -/
noncomputable def sortMatrix {n : ℕ} (M : Fin n → Fin n → ℝ) :
    Fin n → Fin n → ℝ :=
  fun i j => M (sortPerm (rowNorm M) i) (sortPerm (rowNorm M) j)

/-- Modelled from the spec: zero-padding of a square matrix to side
`nmax`, the real entries occupying the top-left block. -/
def padMat (nmax N : ℕ) (M : Fin N → Fin N → ℝ) : Fin nmax → Fin nmax → ℝ :=
  fun i j => if h : (i : ℕ) < N ∧ (j : ℕ) < N then M ⟨i, h.1⟩ ⟨j, h.2⟩ else 0

/-- Modelled from the spec: zero-padding of a vector to length `nmax`. -/
def padVec (nmax N : ℕ) (v : Fin N → ℝ) : Fin nmax → ℝ :=
  fun i => if h : (i : ℕ) < N then v ⟨i, h⟩ else 0

/-- Modelled from the spec: row-major unrolling of a square matrix into a
vector of length `nmax * nmax`. -/
def flattenMat (nmax : ℕ) (M : Fin nmax → Fin nmax → ℝ) :
    Fin (nmax * nmax) → ℝ :=
  fun k =>
    have hpos : 0 < nmax := by
      rcases Nat.eq_zero_or_pos nmax with h0 | h0
      · exact absurd k.isLt (by simp [h0])
      · exact h0
    M ⟨(k : ℕ) / nmax, (Nat.div_lt_iff_lt_mul hpos).mpr k.isLt⟩
      ⟨(k : ℕ) % nmax, Nat.mod_lt _ hpos⟩

open Classical in
/-- Modelled from the spec: the eigenspectrum reduction — the eigenvalues
of the (symmetric) raw matrix, sorted by descending absolute value with
ties broken stably.  A non-symmetric argument (excluded by the kernel
contract) is mapped to the zero vector. -/
noncomputable def eigenSpectrumDesc (N : ℕ) (raw : Fin N → Fin N → ℝ) :
    Fin N → ℝ :=
  if h : (Matrix.of raw).IsHermitian then
    fun i => h.eigenvalues (sortPerm (fun j => |h.eigenvalues j|) i)
  else fun _ => 0

/-- Modelled from the spec: the matrix-valued permutation strategies applied
to the raw matrix.  `none` keeps the raw order, `sorted_l2` conjugates by
the stable descending row-norm sort, `random` conjugates by the sort of the
noisy row norms.  (`eigenspectrum` never reaches this step.) -/
noncomputable def permuteRaw (p : Permutation) (N : ℕ)
    (raw : Fin N → Fin N → ℝ) (noise : Fin N → ℝ) : Fin N → Fin N → ℝ :=
  match p with
  | .none => raw
  | .sorted_l2 => sortMatrix raw
  | .eigenspectrum => raw
  | .random =>
      fun i j => raw (sortPerm (fun a => rowNorm raw a + noise a) i)
        (sortPerm (fun a => rowNorm raw a + noise a) j)

/-- Modelled from the spec: the descriptor output — either a square matrix
or a 1D vector, with its size. -/
inductive DOut where
  | mat : (n : ℕ) → (Fin n → Fin n → ℝ) → DOut
  | vec : (n : ℕ) → (Fin n → ℝ) → DOut

/-- Modelled from the spec: the central `create` algorithm.  Fails with
`SizeError` when the structure has more atoms than `n_atoms_max`; otherwise
applies the permutation strategy, zero-pads, and flattens row-major when
configured (the eigenspectrum vector is returned as-is regardless of
`flatten`). -/
noncomputable def create (cfg : Config) (N : ℕ) (raw : Fin N → Fin N → ℝ)
    (noise : Fin N → ℝ) : Except DescribeError DOut :=
  if cfg.n_atoms_max < N then .error .size
  else if cfg.permutation = .eigenspectrum then
    .ok (.vec cfg.n_atoms_max (padVec cfg.n_atoms_max N (eigenSpectrumDesc N raw)))
  else
    let P := padMat cfg.n_atoms_max N (permuteRaw cfg.permutation N raw noise)
    if cfg.flatten then
      .ok (.vec (cfg.n_atoms_max * cfg.n_atoms_max) (flattenMat cfg.n_atoms_max P))
    else .ok (.mat cfg.n_atoms_max P)

/-- Modelled from the spec: `get_number_of_features`, a pure function of
the configuration. -/
def get_number_of_features (cfg : Config) : ℕ :=
  if cfg.permutation = .eigenspectrum then cfg.n_atoms_max
  else cfg.n_atoms_max * cfg.n_atoms_max

/-- Modelled from the spec: the standalone `sort` operation lifted to a
descriptor output (it acts on matrix-valued outputs). -/
noncomputable def sortOutput : DOut → DOut
  | .mat n M => .mat n (sortMatrix M)
  | .vec n v => .vec n v

/-- Modelled from the spec and the regression test `test_norm_vector`: the
mutable state of an engine instance — the immutable configuration plus the
`_norm_vector` attribute that the sorting strategies write during `create`
(the test asserts it is readable, un-padded, after `create` returns). -/
structure EngineState where
  config : Config
  norm_vector : Option (List ℝ)

/-- Modelled from the spec and the regression test `test_norm_vector`:
`create` as a state transformer on an engine instance.  The returned value
is exactly `create` of the configuration; on a successful call of a sorting
strategy the length-`N` row-norm vector of the raw matrix is stored in the
`_norm_vector` attribute. -/
noncomputable def createWithState (st : EngineState) (N : ℕ)
    (raw : Fin N → Fin N → ℝ) (noise : Fin N → ℝ) :
    Except DescribeError DOut × EngineState :=
  (create st.config N raw noise,
    if st.config.n_atoms_max < N then st
    else match st.config.permutation with
      | .sorted_l2 => { st with norm_vector := some (List.ofFn (rowNorm raw)) }
      | .random => { st with norm_vector := some (List.ofFn (rowNorm raw)) }
      | _ => st)

/-- The order-preserving identification of `Fin N` with the first `N`
indices of `Fin nmax`. -/
def finNEquivSubtype {nmax N : ℕ} (h : N ≤ nmax) :
    Fin N ≃ {i : Fin nmax // (i : ℕ) < N} where
  toFun a := ⟨Fin.castLE h a, by simp⟩
  invFun s := ⟨(s.1 : ℕ), s.2⟩
  left_inv a := by apply Fin.ext; simp
  right_inv s := by apply Subtype.ext; apply Fin.ext; simp

/-- Extension of a permutation of the first `N` indices to all of
`Fin nmax`, fixing the padding indices. -/
def padPerm {nmax N : ℕ} (h : N ≤ nmax) (ρ : Equiv.Perm (Fin N)) :
    Equiv.Perm (Fin nmax) :=
  ρ.extendDomain (finNEquivSubtype h)

/-! ## Concrete inputs for witnesses and counterexamples -/

/-- Identity 3×3 cell (and its inverse). -/
def cellId : Fin 3 → Fin 3 → ℝ := fun a b => if a = b then 1 else 0

/-- Zero displacement tensor on two atoms. -/
def dispZero2 : Fin 2 → Fin 2 → Fin 3 → ℝ := fun _ _ _ => 0

/-- Concrete charge vector for two atoms. -/
noncomputable def chargesW : Fin 2 → ℝ := ![1, 2]

/-- Concrete integer lattice vector used by the C10 witness. -/
def kW : Fin 3 → ℤ := ![1, 0, 0]

/-- A symmetric 2×2 interaction matrix whose two rows have equal L2 norm
(`√5` each) but which is not invariant under simultaneously swapping its
rows and columns. -/
noncomputable def rawTie : Fin 2 → Fin 2 → ℝ := ![![1, 2], ![2, -1]]

/-- The relabelling of `rawTie` under exchanging the two atoms. -/
noncomputable def rawTieSwap : Fin 2 → Fin 2 → ℝ :=
  fun i j => rawTie (Equiv.swap 0 1 i) (Equiv.swap 0 1 j)

/-- Noise vector that reverses the noisy-norm order of `rawTie`. -/
noncomputable def noiseTie : Fin 2 → ℝ := ![0, 10]

/-- Zero noise vector on one atom. -/
def noiseZero1 : Fin 1 → ℝ := fun _ => 0

/-- Zero noise vector on two atoms. -/
def noiseZero2 : Fin 2 → ℝ := fun _ => 0

/-- All-ones 1×1 raw matrix. -/
def rawOne1 : Fin 1 → Fin 1 → ℝ := fun _ _ => 1

/-- All-ones 2×2 raw matrix. -/
def rawOne2 : Fin 2 → Fin 2 → ℝ := fun _ _ => 1

/-- All-ones 3×3 raw matrix. -/
def rawOne3 : Fin 3 → Fin 3 → ℝ := fun _ _ => 1

/-- Zero noise vector on three atoms. -/
def noiseZero3 : Fin 3 → ℝ := fun _ => 0

/-- Configuration: `n_atoms_max = 2`, `sorted_l2`, unflattened. -/
def cfgSorted2 : Config := ⟨2, Permutation.sorted_l2, false, Option.none⟩

/-- Configuration: `n_atoms_max = 2`, `random` with `sigma = 100`,
unflattened. -/
noncomputable def cfgRandom2 : Config :=
  ⟨2, Permutation.random, false, some 100⟩

/-- Configuration: `n_atoms_max = 1`, `random` with `sigma = 1`,
unflattened. -/
noncomputable def cfgRandom1 : Config :=
  ⟨1, Permutation.random, false, some 1⟩

/-- Configuration: `n_atoms_max = 3`, `none`, flattened. -/
def cfgFlat3 : Config := ⟨3, Permutation.none, true, Option.none⟩

/-- Configuration: `n_atoms_max = 2`, `none`, unflattened. -/
def cfgNone2 : Config := ⟨2, Permutation.none, false, Option.none⟩

/-- The flattened output that `create` produces for `cfgFlat3` on the
two-atom all-ones raw matrix. -/
noncomputable def flatOut3 : Fin 9 → ℝ :=
  flattenMat 3 (padMat 3 2 (permuteRaw Permutation.none 2 rawOne2 noiseZero2))

/-! ## Auxiliary lemmas -/

/-- Shifting the argument by an integer multiple of `π` does not change the
squared sine.  This is what makes the sine-matrix kernel insensitive to
lattice translations of a displacement. -/
theorem sin_sq_add_int_mul_pi (x : ℝ) (n : ℤ) :
    Real.sin (x + n * Real.pi) ^ 2 = Real.sin x ^ 2 := by
  have h := Real.sin_sq_add_cos_sq ((n : ℝ) * Real.pi)
  have hs : Real.sin ((n : ℝ) * Real.pi) = 0 := Real.sin_int_mul_pi n
  have hc : Real.cos ((n : ℝ) * Real.pi) ^ 2 = 1 := by
    rw [hs] at h; simpa using h
  rw [Real.sin_add, hs]
  calc (Real.sin x * Real.cos ((n : ℝ) * Real.pi) + Real.cos x * 0) ^ 2
      = Real.sin x ^ 2 * Real.cos ((n : ℝ) * Real.pi) ^ 2 := by ring
    _ = Real.sin x ^ 2 := by rw [hc]; ring

/-- Characterisation of `sortPerm`: a permutation is the stable descending
sort of `r` iff it arranges `r` non-increasingly and breaks ties by
ascending original index. -/
theorem eq_sortPerm_iff {n : ℕ} {r : Fin n → ℝ} {σ : Equiv.Perm (Fin n)} :
    σ = sortPerm r ↔
      (∀ i j, i ≤ j → r (σ j) ≤ r (σ i)) ∧
      (∀ i j, i < j → r (σ i) = r (σ j) → σ i < σ j) := by
  rw [sortPerm, Tuple.eq_sort_iff]
  constructor
  · rintro ⟨h1, h2⟩
    refine ⟨fun i j hij => ?_, fun i j hij he => h2 i j hij (by rw [he])⟩
    have := h1 hij
    simpa using this
  · rintro ⟨h1, h2⟩
    refine ⟨fun i j hij => ?_, fun i j hij he => h2 i j hij (neg_inj.mp he)⟩
    simpa using h1 i j hij

/-- The stable descending sort arranges its key non-increasingly. -/
theorem sortPerm_antitone {n : ℕ} (r : Fin n → ℝ) :
    ∀ i j, i ≤ j → r (sortPerm r j) ≤ r (sortPerm r i) :=
  (eq_sortPerm_iff.mp rfl).1

/-- The stable descending sort breaks ties by ascending original index. -/
theorem sortPerm_stable {n : ℕ} (r : Fin n → ℝ) :
    ∀ i j, i < j → r (sortPerm r i) = r (sortPerm r j) →
      sortPerm r i < sortPerm r j :=
  (eq_sortPerm_iff.mp rfl).2

/-- A key that is already non-increasing is left in place by the stable
descending sort. -/
theorem sortPerm_eq_refl {n : ℕ} {r : Fin n → ℝ}
    (hr : ∀ i j : Fin n, i ≤ j → r j ≤ r i) :
    sortPerm r = Equiv.refl (Fin n) :=
  (eq_sortPerm_iff.mpr ⟨fun i j hij => hr i j hij, fun i j hij _ => hij⟩).symm

/-- Row norms are non-negative. -/
theorem rowNorm_nonneg {n m : ℕ} (M : Fin n → Fin m → ℝ) (i : Fin n) :
    0 ≤ rowNorm M i :=
  Real.sqrt_nonneg _

/-- Rows of a conjugated matrix have the norms of the original rows,
relocated by the permutation. -/
theorem rowNorm_conj {N : ℕ} (M : Fin N → Fin N → ℝ) (σ : Equiv.Perm (Fin N))
    (i : Fin N) :
    rowNorm (fun a b => M (σ a) (σ b)) i = rowNorm M (σ i) := by
  unfold rowNorm
  exact congrArg Real.sqrt (Equiv.sum_comp σ fun j => M (σ i) j ^ 2)

/-- Summing a function extended by zero beyond `N` over `Fin nmax` equals
summing it over `Fin N`. -/
theorem sum_dite_lt (nmax N : ℕ) (h : N ≤ nmax) (g : Fin N → ℝ) :
    ∑ j : Fin nmax, (if hj : (j : ℕ) < N then g ⟨j, hj⟩ else 0)
      = ∑ j : Fin N, g j := by
  calc ∑ j : Fin nmax, (if hj : (j : ℕ) < N then g ⟨j, hj⟩ else 0)
      = ∑ a ∈ Finset.range nmax, (if ha : a < N then g ⟨a, ha⟩ else 0) :=
        Fin.sum_univ_eq_sum_range (fun a => if ha : a < N then g ⟨a, ha⟩ else 0) nmax
    _ = ∑ a ∈ Finset.range N, (if ha : a < N then g ⟨a, ha⟩ else 0) :=
        (Finset.sum_subset (Finset.range_subset.mpr h)
          (fun x _ hx => dif_neg (by simpa using hx))).symm
    _ = ∑ j : Fin N, (if hj : (j : ℕ) < N then g ⟨(j : ℕ), hj⟩ else 0) :=
        (Fin.sum_univ_eq_sum_range (fun a => if ha : a < N then g ⟨a, ha⟩ else 0) N).symm
    _ = ∑ j : Fin N, g j := Finset.sum_congr rfl fun j _ => by
        rw [dif_pos j.isLt]

/-- Row norms of a zero-padded matrix: the first `N` rows keep the norms of
the embedded matrix, the padding rows have norm `0`. -/
theorem rowNorm_padMat (nmax N : ℕ) (h : N ≤ nmax) (M : Fin N → Fin N → ℝ)
    (i : Fin nmax) :
    rowNorm (padMat nmax N M) i
      = if hi : (i : ℕ) < N then rowNorm M ⟨i, hi⟩ else 0 := by
  by_cases hi : (i : ℕ) < N
  · rw [dif_pos hi]
    unfold rowNorm
    have hsq : ∀ j : Fin nmax, padMat nmax N M i j ^ 2
        = (if hj : (j : ℕ) < N then M ⟨i, hi⟩ ⟨(j : ℕ), hj⟩ ^ 2 else 0) := by
      intro j
      by_cases hj : (j : ℕ) < N
      · rw [dif_pos hj]
        unfold padMat
        rw [dif_pos ⟨hi, hj⟩]
      · unfold padMat
        rw [dif_neg (fun hc => hj hc.2), dif_neg hj]
        norm_num
    rw [Finset.sum_congr rfl fun j _ => hsq j,
      sum_dite_lt nmax N h (fun jj => M ⟨i, hi⟩ jj ^ 2)]
  · rw [dif_neg hi]
    unfold rowNorm
    have hsq : ∀ j : Fin nmax, padMat nmax N M i j ^ 2 = 0 := by
      intro j
      unfold padMat
      rw [dif_neg (fun hc => hi hc.1)]
      norm_num
    rw [Finset.sum_congr rfl fun j _ => hsq j]
    simp

/-- Action of `padPerm` on an index below `N`. -/
theorem padPerm_apply_lt {nmax N : ℕ} (h : N ≤ nmax) (ρ : Equiv.Perm (Fin N))
    (i : Fin nmax) (hi : (i : ℕ) < N) :
    padPerm h ρ i = Fin.castLE h (ρ ⟨i, hi⟩) := by
  unfold padPerm
  rw [Equiv.Perm.extendDomain_apply_subtype ρ (finNEquivSubtype h) hi]
  rfl

/-- Action of `padPerm` on a padding index. -/
theorem padPerm_apply_ge {nmax N : ℕ} (h : N ≤ nmax) (ρ : Equiv.Perm (Fin N))
    (i : Fin nmax) (hi : ¬(i : ℕ) < N) :
    padPerm h ρ i = i := by
  unfold padPerm
  exact Equiv.Perm.extendDomain_apply_not_subtype ρ (finNEquivSubtype h) hi

/-- If a permutation `π` arranges the row norms of `M` non-increasingly and
breaks ties by ascending index, then sorting `M` is conjugation by `π`. -/
theorem sortMatrix_eq_of_perm {n : ℕ} (M : Fin n → Fin n → ℝ)
    (π : Equiv.Perm (Fin n))
    (hmono : ∀ i j, i ≤ j → rowNorm M (π j) ≤ rowNorm M (π i))
    (hstab : ∀ i j, i < j → rowNorm M (π i) = rowNorm M (π j) → π i < π j) :
    sortMatrix M = fun i j => M (π i) (π j) := by
  unfold sortMatrix
  rw [← eq_sortPerm_iff.mpr ⟨hmono, hstab⟩]

/-- Sorting a conjugated matrix recovers the sorted original, provided the
row norms are pairwise distinct. -/
theorem sortMatrix_conj {N : ℕ} (raw : Fin N → Fin N → ℝ)
    (hinj : Function.Injective (rowNorm raw)) (ρ : Equiv.Perm (Fin N)) :
    sortMatrix (fun i j => raw (ρ i) (ρ j)) = sortMatrix raw := by
  have hnorm : ∀ i, rowNorm (fun a b => raw (ρ a) (ρ b))
      ((Equiv.trans (sortPerm (rowNorm raw)) ρ.symm) i)
      = rowNorm raw (sortPerm (rowNorm raw) i) := by
    intro i
    rw [rowNorm_conj raw ρ, Equiv.trans_apply, Equiv.apply_symm_apply]
  rw [sortMatrix_eq_of_perm (fun i j => raw (ρ i) (ρ j))
      (Equiv.trans (sortPerm (rowNorm raw)) ρ.symm)
      (fun i j hij => by
        rw [hnorm i, hnorm j]
        exact sortPerm_antitone (rowNorm raw) i j hij)
      (fun i j hij he => by
        rw [hnorm i, hnorm j] at he
        exact absurd ((sortPerm (rowNorm raw)).injective (hinj he))
          (ne_of_lt hij))]
  funext i j
  simp only [Equiv.trans_apply, Equiv.apply_symm_apply]
  rfl

/-- Sorting the zero-padded conjugate of a matrix with pairwise-distinct
row norms recovers the zero-padded sorted original: the canonical sort
undoes any permutation applied before padding. -/
theorem sortMatrix_padMat_conj (nmax N : ℕ) (h : N ≤ nmax)
    (raw : Fin N → Fin N → ℝ) (hinj : Function.Injective (rowNorm raw))
    (τ : Equiv.Perm (Fin N)) :
    sortMatrix (padMat nmax N (fun i j => raw (τ i) (τ j)))
      = padMat nmax N (sortMatrix raw) := by
  have hMnorm : ∀ a : Fin N, rowNorm (fun a b => raw (τ a) (τ b)) a
      = rowNorm raw (τ a) := fun a => rowNorm_conj raw τ a
  have hρ : ∀ a : Fin N,
      τ ((Equiv.trans (sortPerm (rowNorm raw)) τ.symm) a)
        = sortPerm (rowNorm raw) a := by
    intro a
    rw [Equiv.trans_apply, Equiv.apply_symm_apply]
  have hcast : ∀ (a : Fin N), ((Fin.castLE h a : Fin nmax) : ℕ) < N := by
    intro a
    simpa using a.isLt
  have hnorm : ∀ i : Fin nmax,
      rowNorm (padMat nmax N (fun a b => raw (τ a) (τ b)))
        (padPerm h (Equiv.trans (sortPerm (rowNorm raw)) τ.symm) i)
      = if hi : (i : ℕ) < N then rowNorm raw (sortPerm (rowNorm raw) ⟨i, hi⟩)
        else 0 := by
    intro i
    by_cases hi : (i : ℕ) < N
    · rw [dif_pos hi, padPerm_apply_lt h _ i hi,
        rowNorm_padMat nmax N h _ _,
        dif_pos (hcast ((Equiv.trans (sortPerm (rowNorm raw)) τ.symm) ⟨i, hi⟩))]
      have he : (⟨((Fin.castLE h ((Equiv.trans (sortPerm (rowNorm raw)) τ.symm)
            ⟨i, hi⟩) : Fin nmax) : ℕ),
            hcast _⟩ : Fin N)
          = (Equiv.trans (sortPerm (rowNorm raw)) τ.symm) ⟨i, hi⟩ := by
        apply Fin.ext
        simp
      rw [he, hMnorm, hρ]
    · rw [dif_neg hi, padPerm_apply_ge h _ i hi,
        rowNorm_padMat nmax N h _ i, dif_neg hi]
  rw [sortMatrix_eq_of_perm _
      (padPerm h (Equiv.trans (sortPerm (rowNorm raw)) τ.symm))
      (fun i j hij => by
        rw [hnorm i, hnorm j]
        by_cases hj : (j : ℕ) < N
        · have hi : (i : ℕ) < N := lt_of_le_of_lt (Fin.le_def.mp hij) hj
          rw [dif_pos hi, dif_pos hj]
          exact sortPerm_antitone (rowNorm raw) ⟨i, hi⟩ ⟨j, hj⟩
            (Fin.mk_le_mk.mpr (Fin.le_def.mp hij))
        · rw [dif_neg hj]
          by_cases hi : (i : ℕ) < N
          · rw [dif_pos hi]
            exact rowNorm_nonneg raw _
          · rw [dif_neg hi])
      (fun i j hij he => by
        rw [hnorm i, hnorm j] at he
        by_cases hj : (j : ℕ) < N
        · have hi : (i : ℕ) < N := lt_trans (Fin.lt_def.mp hij) hj
          rw [dif_pos hi, dif_pos hj] at he
          have h2 : (⟨(i : ℕ), hi⟩ : Fin N) = ⟨(j : ℕ), hj⟩ :=
            (sortPerm (rowNorm raw)).injective (hinj he)
          have h3 : (i : ℕ) = (j : ℕ) := by
            simpa using congrArg Fin.val h2
          exact absurd h3 (Nat.ne_of_lt (Fin.lt_def.mp hij))
        · by_cases hi : (i : ℕ) < N
          · rw [padPerm_apply_lt h _ i hi, padPerm_apply_ge h _ j hj]
            exact Fin.lt_def.mpr
              (lt_of_lt_of_le (hcast _) (not_lt.mp hj))
          · rw [padPerm_apply_ge h _ i hi, padPerm_apply_ge h _ j hj]
            exact hij)]
  funext i j
  by_cases hi : (i : ℕ) < N <;> by_cases hj : (j : ℕ) < N
  · rw [padPerm_apply_lt h _ i hi, padPerm_apply_lt h _ j hj]
    unfold padMat
    rw [dif_pos ⟨hcast _, hcast _⟩, dif_pos ⟨hi, hj⟩]
    have hei : (⟨((Fin.castLE h ((Equiv.trans (sortPerm (rowNorm raw)) τ.symm)
          ⟨i, hi⟩) : Fin nmax) : ℕ), hcast _⟩ : Fin N)
        = (Equiv.trans (sortPerm (rowNorm raw)) τ.symm) ⟨i, hi⟩ := by
      apply Fin.ext; simp
    have hej : (⟨((Fin.castLE h ((Equiv.trans (sortPerm (rowNorm raw)) τ.symm)
          ⟨j, hj⟩) : Fin nmax) : ℕ), hcast _⟩ : Fin N)
        = (Equiv.trans (sortPerm (rowNorm raw)) τ.symm) ⟨j, hj⟩ := by
      apply Fin.ext; simp
    rw [hei, hej]
    show raw (τ _) (τ _) = sortMatrix raw ⟨i, hi⟩ ⟨j, hj⟩
    rw [hρ, hρ]
    rfl
  · rw [padPerm_apply_ge h _ j hj]
    unfold padMat
    rw [dif_neg (fun hc => hj hc.2), dif_neg (fun hc => hj hc.2)]
  · rw [padPerm_apply_ge h _ i hi]
    unfold padMat
    rw [dif_neg (fun hc => hi hc.1), dif_neg (fun hc => hi hc.1)]
  · rw [padPerm_apply_ge h _ i hi]
    unfold padMat
    rw [dif_neg (fun hc => hi hc.1), dif_neg (fun hc => hi hc.1)]

/-- Padding to the same size is the identity. -/
theorem padMat_self (n : ℕ) (M : Fin n → Fin n → ℝ) : padMat n n M = M := by
  funext i j
  unfold padMat
  rw [dif_pos ⟨i.isLt, j.isLt⟩]

/-- Row norms of a sorted matrix are the row norms of the original,
relocated by the sorting permutation. -/
theorem rowNorm_sortMatrix {n : ℕ} (M : Fin n → Fin n → ℝ) (a : Fin n) :
    rowNorm (sortMatrix M) a = rowNorm M (sortPerm (rowNorm M) a) :=
  rowNorm_conj M (sortPerm (rowNorm M)) a

/-- The two rows of `rawTie` have equal L2 norm. -/
theorem rowNorm_rawTie_eq : rowNorm rawTie 0 = rowNorm rawTie 1 := by
  unfold rowNorm rawTie
  rw [Fin.sum_univ_two, Fin.sum_univ_two]
  norm_num

/-- The two rows of `rawTieSwap` have equal L2 norm. -/
theorem rowNorm_rawTieSwap_eq : rowNorm rawTieSwap 0 = rowNorm rawTieSwap 1 := by
  unfold rowNorm rawTieSwap rawTie
  rw [Fin.sum_univ_two, Fin.sum_univ_two]
  norm_num [Equiv.swap_apply_left, Equiv.swap_apply_right]

/-- With both row norms tied, the stable sort leaves `rawTie` unchanged. -/
theorem sortMatrix_rawTie : sortMatrix rawTie = rawTie := by
  have hr : sortPerm (rowNorm rawTie) = Equiv.refl (Fin 2) := by
    apply sortPerm_eq_refl
    intro i j hij
    fin_cases i <;> fin_cases j
    · exact le_refl _
    · exact le_of_eq rowNorm_rawTie_eq.symm
    · exact absurd hij (by decide)
    · exact le_refl _
  funext i j
  show rawTie (sortPerm (rowNorm rawTie) i) (sortPerm (rowNorm rawTie) j)
    = rawTie i j
  rw [hr]
  rfl

/-- With both row norms tied, the stable sort leaves `rawTieSwap`
unchanged. -/
theorem sortMatrix_rawTieSwap : sortMatrix rawTieSwap = rawTieSwap := by
  have hr : sortPerm (rowNorm rawTieSwap) = Equiv.refl (Fin 2) := by
    apply sortPerm_eq_refl
    intro i j hij
    fin_cases i <;> fin_cases j
    · exact le_refl _
    · exact le_of_eq rowNorm_rawTieSwap_eq.symm
    · exact absurd hij (by decide)
    · exact le_refl _
  funext i j
  show rawTieSwap (sortPerm (rowNorm rawTieSwap) i)
      (sortPerm (rowNorm rawTieSwap) j) = rawTieSwap i j
  rw [hr]
  rfl

/-- The noisy norms of `rawTie` under `noiseTie` are sorted by the swap. -/
theorem sortPerm_rawTie_noiseTie :
    sortPerm (fun a => rowNorm rawTie a + noiseTie a) = Equiv.swap 0 1 := by
  refine (eq_sortPerm_iff.mpr ⟨?_, ?_⟩).symm
  · intro i j hij
    fin_cases i <;> fin_cases j
    · exact le_refl _
    · have h0 := rowNorm_rawTie_eq
      simp only [Equiv.swap_apply_left, Equiv.swap_apply_right, noiseTie]
      norm_num
      linarith
    · exact absurd hij (by decide)
    · exact le_refl _
  · intro i j hij he
    fin_cases i <;> fin_cases j
    · exact absurd hij (by decide)
    · exfalso
      have h0 := rowNorm_rawTie_eq
      simp only [Equiv.swap_apply_left, Equiv.swap_apply_right, noiseTie] at he
      norm_num at he
      linarith
    · exact absurd hij (by decide)
    · exact absurd hij (by decide)

/-- Reduction of `create` on an oversized structure. -/
theorem create_of_size (cfg : Config) (N : ℕ) (raw : Fin N → Fin N → ℝ)
    (noise : Fin N → ℝ) (h : cfg.n_atoms_max < N) :
    create cfg N raw noise = .error .size := by
  unfold create
  rw [if_pos h]

/-- Reduction of `create` in eigenspectrum mode. -/
theorem create_eigen (cfg : Config) (N : ℕ) (raw : Fin N → Fin N → ℝ)
    (noise : Fin N → ℝ) (h : ¬cfg.n_atoms_max < N)
    (hp : cfg.permutation = .eigenspectrum) :
    create cfg N raw noise = .ok (.vec cfg.n_atoms_max
      (padVec cfg.n_atoms_max N (eigenSpectrumDesc N raw))) := by
  unfold create
  rw [if_neg h, if_pos hp]

/-- Reduction of `create` in an unflattened matrix mode. -/
theorem create_mat (cfg : Config) (N : ℕ) (raw : Fin N → Fin N → ℝ)
    (noise : Fin N → ℝ) (h : ¬cfg.n_atoms_max < N)
    (hp : cfg.permutation ≠ .eigenspectrum) (hf : cfg.flatten = false) :
    create cfg N raw noise = .ok (.mat cfg.n_atoms_max
      (padMat cfg.n_atoms_max N (permuteRaw cfg.permutation N raw noise))) := by
  unfold create
  rw [if_neg h, if_neg hp]
  simp only [hf, Bool.false_eq_true, if_false]

/-- Reduction of `create` in a flattened matrix mode. -/
theorem create_flat (cfg : Config) (N : ℕ) (raw : Fin N → Fin N → ℝ)
    (noise : Fin N → ℝ) (h : ¬cfg.n_atoms_max < N)
    (hp : cfg.permutation ≠ .eigenspectrum) (hf : cfg.flatten = true) :
    create cfg N raw noise = .ok (.vec (cfg.n_atoms_max * cfg.n_atoms_max)
      (flattenMat cfg.n_atoms_max
        (padMat cfg.n_atoms_max N (permuteRaw cfg.permutation N raw noise)))) := by
  unfold create
  rw [if_neg h, if_neg hp]
  simp only [hf, if_true]

/-! ## Claims about the sine-matrix kernel -/

/-- C1: for every structure (charges `q`, cell `B` with inverse `Binv`,
displacement tensor `D`), the matrix returned by `SineMatrix.get_matrix`
has off-diagonal entries `(q i * q j) / phi i j` and diagonal entries
`0.5 * q i ^ 2.4`; the diagonal value holds unconditionally — in
particular it is the stated self-term even where `phi i i = 0`, so the
division singularity on the diagonal never reaches the caller. -/
theorem sine_matrix_entries (N : ℕ) (q : Fin N → ℝ) (B Binv : Fin 3 → Fin 3 → ℝ)
    (D : Fin N → Fin N → Fin 3 → ℝ) :
    (∀ i j, i ≠ j →
      SineMatrix.get_matrix N q B Binv D i j = (q i * q j) / phi N B Binv D i j) ∧
    (∀ i, SineMatrix.get_matrix N q B Binv D i i = 0.5 * q i ^ (2.4 : ℝ)) := by
  constructor
  · intro i j hij
    simp [SineMatrix.get_matrix, hij, div_eq_mul_inv]
  · intro i
    simp [SineMatrix.get_matrix]

/-- Closed witness for C1 at a concrete two-atom structure. -/
theorem sine_matrix_entries_witness :
    SineMatrix.get_matrix 2 chargesW cellId cellId dispZero2 0 1 =
      (chargesW 0 * chargesW 1) / phi 2 cellId cellId dispZero2 0 1 ∧
    SineMatrix.get_matrix 2 chargesW cellId cellId dispZero2 0 0 =
      0.5 * chargesW 0 ^ (2.4 : ℝ) :=
  ⟨(sine_matrix_entries 2 chargesW cellId cellId dispZero2).1 0 1 (by decide),
   (sine_matrix_entries 2 chargesW cellId cellId dispZero2).2 0⟩

/-- C3: if the displacement tensor is antisymmetric (`D i j = -(D j i)`
componentwise), the raw sine matrix is symmetric. -/
theorem sine_matrix_symmetric (N : ℕ) (q : Fin N → ℝ) (B Binv : Fin 3 → Fin 3 → ℝ)
    (D : Fin N → Fin N → Fin 3 → ℝ) (hD : ∀ i j l, D i j l = -(D j i l)) :
    ∀ i j, SineMatrix.get_matrix N q B Binv D i j =
      SineMatrix.get_matrix N q B Binv D j i := by
  have harg : ∀ i j k, argToSin N Binv D i j k = -(argToSin N Binv D j i k) := by
    intro i j k
    unfold argToSin
    rw [← mul_neg, ← Finset.sum_neg_distrib]
    congr 1
    refine Finset.sum_congr rfl fun l _ => ?_
    rw [hD i j l]
    ring
  have hsin : ∀ i j k, sinSqB N B Binv D i j k = sinSqB N B Binv D j i k := by
    intro i j k
    unfold sinSqB
    refine Finset.sum_congr rfl fun l _ => ?_
    rw [harg i j l, Real.sin_neg]
    ring
  have hphi : ∀ i j, phi N B Binv D i j = phi N B Binv D j i := by
    intro i j
    unfold phi
    congr 1
    exact Finset.sum_congr rfl fun k _ => by rw [hsin i j k]
  intro i j
  by_cases hij : i = j
  · rw [hij]
  · have hji : ¬(j = i) := fun hc => hij hc.symm
    simp only [SineMatrix.get_matrix, if_neg hij, if_neg hji]
    rw [hphi i j]
    ring

/-- Closed witness for C3: the zero displacement tensor is antisymmetric. -/
theorem sine_matrix_symmetric_witness :
    SineMatrix.get_matrix 2 chargesW cellId cellId dispZero2 0 1 =
      SineMatrix.get_matrix 2 chargesW cellId cellId dispZero2 1 0 :=
  sine_matrix_symmetric 2 chargesW cellId cellId dispZero2
    (fun _ _ _ => by simp [dispZero2]) 0 1

set_option maxHeartbeats 1000000 in
/-- C10: lattice-translation invariance of the sine matrix.  If `Binv` is a
genuine right inverse of the cell `B`, then adding an integer combination
`∑ m, k m • (row m of B)` to any single displacement `D i₀ j₀` leaves
`SineMatrix.get_matrix` unchanged, because `sin² (π (x + k)) = sin² (π x)`
for integer `k`. -/
theorem sine_matrix_lattice_invariant (N : ℕ) (q : Fin N → ℝ)
    (B Binv : Fin 3 → Fin 3 → ℝ)
    (hB : ∀ m c, ∑ l, B m l * Binv l c = if m = c then 1 else 0)
    (D : Fin N → Fin N → Fin 3 → ℝ) (k : Fin 3 → ℤ) (i0 j0 : Fin N) :
    SineMatrix.get_matrix N q B Binv
      (fun i j l => if i = i0 ∧ j = j0 then D i j l + ∑ m, (k m : ℝ) * B m l
        else D i j l) =
    SineMatrix.get_matrix N q B Binv D := by
  set D' : Fin N → Fin N → Fin 3 → ℝ :=
    fun i j l => if i = i0 ∧ j = j0 then D i j l + ∑ m, (k m : ℝ) * B m l
      else D i j l with hD'
  have harg : ∀ c, argToSin N Binv D' i0 j0 c =
      argToSin N Binv D i0 j0 c + (k c : ℝ) * Real.pi := by
    intro c
    unfold argToSin
    have hrow : ∀ l, D' i0 j0 l = D i0 j0 l + ∑ m, (k m : ℝ) * B m l := by
      intro l; simp [hD']
    have hsum : ∑ l, D' i0 j0 l * Binv l c =
        (∑ l, D i0 j0 l * Binv l c) + (k c : ℝ) := by
      have h1 : ∑ l, D' i0 j0 l * Binv l c =
          (∑ l, D i0 j0 l * Binv l c) + ∑ l, (∑ m, (k m : ℝ) * B m l) * Binv l c := by
        rw [← Finset.sum_add_distrib]
        refine Finset.sum_congr rfl fun l _ => ?_
        rw [hrow l]; ring
      have h2 : ∑ l, (∑ m, (k m : ℝ) * B m l) * Binv l c = (k c : ℝ) := by
        have e1 : ∀ l : Fin 3, (∑ m, (k m : ℝ) * B m l) * Binv l c
            = ∑ m, (k m : ℝ) * B m l * Binv l c := by
          intro l; rw [Finset.sum_mul]
        rw [Finset.sum_congr rfl fun l _ => e1 l, Finset.sum_comm]
        have e2 : ∀ m : Fin 3, ∑ l, (k m : ℝ) * B m l * Binv l c
            = (k m : ℝ) * ∑ l, B m l * Binv l c := by
          intro m
          rw [Finset.mul_sum]
          exact Finset.sum_congr rfl fun l _ => by ring
        rw [Finset.sum_congr rfl fun m _ => e2 m]
        have e3 : ∀ m : Fin 3, (k m : ℝ) * ∑ l, B m l * Binv l c
            = if m = c then (k m : ℝ) else 0 := by
          intro m
          rw [hB m c]
          by_cases hmc : m = c <;> simp [hmc]
        rw [Finset.sum_congr rfl fun m _ => e3 m]
        simp
      rw [h1, h2]
    rw [hsum]; ring
  have hother : ∀ i j, ¬(i = i0 ∧ j = j0) → ∀ l, D' i j l = D i j l := by
    intro i j hij l; simp [hD', hij]
  have hsinsq : ∀ i j c, sinSqB N B Binv D' i j c = sinSqB N B Binv D i j c := by
    intro i j c
    by_cases hij : i = i0 ∧ j = j0
    · obtain ⟨rfl, rfl⟩ := hij
      unfold sinSqB
      refine Finset.sum_congr rfl fun l _ => ?_
      rw [harg l, sin_sq_add_int_mul_pi]
    · unfold sinSqB argToSin
      refine Finset.sum_congr rfl fun l _ => ?_
      have hsum : ∑ m, D' i j m * Binv m l = ∑ m, D i j m * Binv m l :=
        Finset.sum_congr rfl fun m _ => by rw [hother i j hij m]
      rw [hsum]
  have hphi : ∀ i j, phi N B Binv D' i j = phi N B Binv D i j := by
    intro i j
    unfold phi
    exact congrArg Real.sqrt
      (Finset.sum_congr rfl fun c _ => by rw [hsinsq i j c])
  funext i j
  by_cases hij : i = j
  · simp [SineMatrix.get_matrix, hij]
  · simp only [SineMatrix.get_matrix, if_neg hij]
    rw [hphi i j]

/-- Closed witness for C10: identity cell, concrete lattice shift of the
displacement from atom 0 to atom 1. -/
theorem sine_matrix_lattice_invariant_witness :
    SineMatrix.get_matrix 2 chargesW cellId cellId
      (fun i j l => if i = 0 ∧ j = 1 then
          dispZero2 i j l + ∑ m, (kW m : ℝ) * cellId m l
        else dispZero2 i j l) =
    SineMatrix.get_matrix 2 chargesW cellId cellId dispZero2 :=
  sine_matrix_lattice_invariant 2 chargesW cellId cellId
    (by
      intro m c
      fin_cases m <;> fin_cases c <;>
        simp [cellId, Fin.sum_univ_three])
    dispZero2 kW 0 1

/-! ## Claims about the descriptor engine -/

/-- C4: for every configuration and structure accepted by `create`
(`N ≤ n_atoms_max`): non-eigenspectrum output is an
`n_atoms_max × n_atoms_max` matrix when unflattened and a vector of length
`n_atoms_max²` when flattened; eigenspectrum output is a vector of length
`n_atoms_max` regardless of `flatten`; and `get_number_of_features` is
exactly that flattened length, as a pure function of the configuration. -/
theorem create_shapes (cfg : Config) (N : ℕ) (raw : Fin N → Fin N → ℝ)
    (noise : Fin N → ℝ) (h : N ≤ cfg.n_atoms_max) :
    (cfg.permutation ≠ Permutation.eigenspectrum → cfg.flatten = false →
      ∃ M, create cfg N raw noise = .ok (.mat cfg.n_atoms_max M)) ∧
    (cfg.permutation ≠ Permutation.eigenspectrum → cfg.flatten = true →
      ∃ v, create cfg N raw noise
        = .ok (.vec (cfg.n_atoms_max * cfg.n_atoms_max) v)) ∧
    (cfg.permutation = Permutation.eigenspectrum →
      ∃ v, create cfg N raw noise = .ok (.vec cfg.n_atoms_max v)) ∧
    get_number_of_features cfg =
      (if cfg.permutation = Permutation.eigenspectrum then cfg.n_atoms_max
        else cfg.n_atoms_max * cfg.n_atoms_max) := by
  have h' : ¬cfg.n_atoms_max < N := not_lt.mpr h
  exact ⟨fun hp hf => ⟨_, create_mat cfg N raw noise h' hp hf⟩,
         fun hp hf => ⟨_, create_flat cfg N raw noise h' hp hf⟩,
         fun hp => ⟨_, create_eigen cfg N raw noise h' hp⟩,
         rfl⟩

/-- Closed witness for C4 at a concrete configuration and structure. -/
theorem create_shapes_witness :
    (cfgNone2.permutation ≠ Permutation.eigenspectrum → cfgNone2.flatten = false →
      ∃ M, create cfgNone2 1 rawOne1 noiseZero1
        = .ok (.mat cfgNone2.n_atoms_max M)) ∧
    (cfgNone2.permutation ≠ Permutation.eigenspectrum → cfgNone2.flatten = true →
      ∃ v, create cfgNone2 1 rawOne1 noiseZero1
        = .ok (.vec (cfgNone2.n_atoms_max * cfgNone2.n_atoms_max) v)) ∧
    (cfgNone2.permutation = Permutation.eigenspectrum →
      ∃ v, create cfgNone2 1 rawOne1 noiseZero1
        = .ok (.vec cfgNone2.n_atoms_max v)) ∧
    get_number_of_features cfgNone2 =
      (if cfgNone2.permutation = Permutation.eigenspectrum then
        cfgNone2.n_atoms_max else cfgNone2.n_atoms_max * cfgNone2.n_atoms_max) :=
  create_shapes cfgNone2 1 rawOne1 noiseZero1 (by norm_num [cfgNone2])

/-- C5 (amended): all padding entries of the output of `create` are exactly
zero — for matrix output the entries whose row or column index is `≥ N`,
for the eigenspectrum vector the entries with index `≥ N`, and for a
flattened matrix the entries whose decoded row index `k / n_atoms_max` or
column index `k % n_atoms_max` is `≥ N`. -/
theorem create_zero_padding (cfg : Config) (N : ℕ) (raw : Fin N → Fin N → ℝ)
    (noise : Fin N → ℝ) :
    (∀ n M, create cfg N raw noise = .ok (.mat n M) →
      ∀ i j : Fin n, N ≤ (i : ℕ) ∨ N ≤ (j : ℕ) → M i j = 0) ∧
    (cfg.permutation = Permutation.eigenspectrum →
      ∀ n v, create cfg N raw noise = .ok (.vec n v) →
        ∀ i : Fin n, N ≤ (i : ℕ) → v i = 0) ∧
    (cfg.permutation ≠ Permutation.eigenspectrum →
      ∀ n v, create cfg N raw noise = .ok (.vec n v) →
        ∀ k : Fin n,
          N ≤ (k : ℕ) / cfg.n_atoms_max ∨ N ≤ (k : ℕ) % cfg.n_atoms_max →
          v k = 0) := by
  have hzero : ∀ (M0 : Fin N → Fin N → ℝ) (i j : Fin cfg.n_atoms_max),
      N ≤ (i : ℕ) ∨ N ≤ (j : ℕ) → padMat cfg.n_atoms_max N M0 i j = 0 := by
    intro M0 i j hij
    unfold padMat
    rw [dif_neg]
    rcases hij with h' | h'
    · exact fun hc => absurd hc.1 (not_lt.mpr h')
    · exact fun hc => absurd hc.2 (not_lt.mpr h')
  refine ⟨?_, ?_, ?_⟩
  · intro n M hc i j hij
    by_cases h : cfg.n_atoms_max < N
    · rw [create_of_size cfg N raw noise h] at hc
      simp at hc
    · by_cases hp : cfg.permutation = Permutation.eigenspectrum
      · rw [create_eigen cfg N raw noise h hp] at hc
        simp at hc
      · by_cases hf : cfg.flatten = true
        · rw [create_flat cfg N raw noise h hp hf] at hc
          simp at hc
        · rw [create_mat cfg N raw noise h hp
            (by rwa [Bool.not_eq_true] at hf)] at hc
          have h1 : DOut.mat cfg.n_atoms_max
              (padMat cfg.n_atoms_max N (permuteRaw cfg.permutation N raw noise))
              = DOut.mat n M := by
            injection hc
          cases h1
          exact hzero _ i j hij
  · intro hp n v hc i hi
    by_cases h : cfg.n_atoms_max < N
    · rw [create_of_size cfg N raw noise h] at hc
      simp at hc
    · rw [create_eigen cfg N raw noise h hp] at hc
      have h1 : DOut.vec cfg.n_atoms_max
          (padVec cfg.n_atoms_max N (eigenSpectrumDesc N raw))
          = DOut.vec n v := by
        injection hc
      cases h1
      unfold padVec
      exact dif_neg (not_lt.mpr hi)
  · intro hp n v hc k hk
    by_cases h : cfg.n_atoms_max < N
    · rw [create_of_size cfg N raw noise h] at hc
      simp at hc
    · by_cases hf : cfg.flatten = true
      · rw [create_flat cfg N raw noise h hp hf] at hc
        have h1 : DOut.vec (cfg.n_atoms_max * cfg.n_atoms_max)
            (flattenMat cfg.n_atoms_max
              (padMat cfg.n_atoms_max N (permuteRaw cfg.permutation N raw noise)))
            = DOut.vec n v := by
          injection hc
        cases h1
        unfold flattenMat
        exact hzero _ _ _ hk
      · rw [create_mat cfg N raw noise h hp
          (by rwa [Bool.not_eq_true] at hf)] at hc
        simp at hc

/-- Closed witness for C5 at a concrete configuration and structure. -/
theorem create_zero_padding_witness :
    (∀ n M, create cfgNone2 1 rawOne1 noiseZero1 = .ok (.mat n M) →
      ∀ i j : Fin n, 1 ≤ (i : ℕ) ∨ 1 ≤ (j : ℕ) → M i j = 0) ∧
    (cfgNone2.permutation = Permutation.eigenspectrum →
      ∀ n v, create cfgNone2 1 rawOne1 noiseZero1 = .ok (.vec n v) →
        ∀ i : Fin n, 1 ≤ (i : ℕ) → v i = 0) ∧
    (cfgNone2.permutation ≠ Permutation.eigenspectrum →
      ∀ n v, create cfgNone2 1 rawOne1 noiseZero1 = .ok (.vec n v) →
        ∀ k : Fin n,
          1 ≤ (k : ℕ) / cfgNone2.n_atoms_max ∨
            1 ≤ (k : ℕ) % cfgNone2.n_atoms_max →
          v k = 0) :=
  create_zero_padding cfgNone2 1 rawOne1 noiseZero1

/-- Counterexample to C5 as frozen: in a flattened output the condition
"vector index `≥ N` is exactly zero" fails — with `n_atoms_max = 3` and a
two-atom structure, the flattened entry at vector index `3 ≥ N = 2` is the
matrix entry `(1, 0)`, which is `1`, not `0`. -/
theorem create_zero_padding_counterexample :
    create cfgFlat3 2 rawOne2 noiseZero2 = Except.ok (DOut.vec 9 flatOut3) ∧
    ((3 : Fin 9) : ℕ) = 3 ∧ 2 ≤ 3 ∧ flatOut3 3 = 1 ∧ (1 : ℝ) ≠ 0 := by
  refine ⟨?_, rfl, by norm_num, ?_, by norm_num⟩
  · rw [create_flat cfgFlat3 2 rawOne2 noiseZero2 (by norm_num [cfgFlat3])
      (by decide) rfl]
    rfl
  · show flattenMat 3 (padMat 3 2 (permuteRaw Permutation.none 2 rawOne2 noiseZero2)) 3 = 1
    unfold flattenMat padMat permuteRaw rawOne2
    simp
    decide

/-- C6: an unrecognized permutation value, a non-positive `n_atoms_max`,
`random` without `sigma`, or `sigma` under a non-`random` strategy, all
raise `ConfigurationError` at construction; and `create` never raises
`ConfigurationError`. -/
theorem constructor_validation :
    (∀ (n : ℤ) (p : String) (fl : Bool) (s : Option ℝ),
      parsePermutation p = Option.none →
      mkDescriptor n p fl s = .error .configuration) ∧
    (∀ (n : ℤ) (p : String) (fl : Bool) (s : Option ℝ), n ≤ 0 →
      mkDescriptor n p fl s = .error .configuration) ∧
    (∀ (n : ℤ) (p : String) (fl : Bool),
      parsePermutation p = some Permutation.random →
      mkDescriptor n p fl Option.none = .error .configuration) ∧
    (∀ (n : ℤ) (p : String) (fl : Bool) (s : ℝ) (q : Permutation),
      parsePermutation p = some q → q ≠ Permutation.random →
      mkDescriptor n p fl (some s) = .error .configuration) ∧
    (∀ (cfg : Config) (N : ℕ) (raw : Fin N → Fin N → ℝ) (noise : Fin N → ℝ),
      create cfg N raw noise ≠ .error .configuration) := by
  refine ⟨?_, ?_, ?_, ?_, ?_⟩
  · intro n p fl s hp
    unfold mkDescriptor
    rw [hp]
  · intro n p fl s hn
    unfold mkDescriptor
    cases hp : parsePermutation p with
    | none => rfl
    | some q =>
      simp only [if_pos hn]
  · intro n p fl hp
    unfold mkDescriptor
    rw [hp]
    by_cases hn : n ≤ 0
    · simp only [if_pos hn]
    · simp only [if_neg hn]
  · intro n p fl s q hp hq
    cases q
    case random => exact absurd rfl hq
    all_goals
      unfold mkDescriptor
      rw [hp]
      by_cases hn : n ≤ 0
      · simp only [if_pos hn]
      · simp only [if_neg hn]
  · intro cfg N raw noise hc
    by_cases h : cfg.n_atoms_max < N
    · rw [create_of_size cfg N raw noise h] at hc
      simp at hc
    · by_cases hp : cfg.permutation = Permutation.eigenspectrum
      · rw [create_eigen cfg N raw noise h hp] at hc
        simp at hc
      · by_cases hf : cfg.flatten = true
        · rw [create_flat cfg N raw noise h hp hf] at hc
          simp at hc
        · rw [create_mat cfg N raw noise h hp
            (by rwa [Bool.not_eq_true] at hf)] at hc
          simp at hc

/-- Closed witness for C6: the four failing constructions of the
regression tests, and a `create` call that does not raise
`ConfigurationError`. -/
theorem constructor_validation_witness :
    mkDescriptor 5 "unknown" false Option.none = .error .configuration ∧
    mkDescriptor (-1) "none" false Option.none = .error .configuration ∧
    mkDescriptor 5 "random" false Option.none = .error .configuration ∧
    mkDescriptor 5 "sorted_l2" false (some 3) = .error .configuration ∧
    create cfgNone2 1 rawOne1 noiseZero1 ≠ .error .configuration :=
  ⟨constructor_validation.1 5 "unknown" false Option.none
      (by simp [parsePermutation]),
   constructor_validation.2.1 (-1) "none" false Option.none (by norm_num),
   constructor_validation.2.2.1 5 "random" false (by simp [parsePermutation]),
   constructor_validation.2.2.2.1 5 "sorted_l2" false 3 Permutation.sorted_l2
      (by simp [parsePermutation]) (by decide),
   constructor_validation.2.2.2.2 cfgNone2 1 rawOne1 noiseZero1⟩

/-- C7: `create` raises `SizeError` exactly when the structure has more
atoms than `n_atoms_max`; otherwise it fully succeeds (returns an `ok`
output — no truncation and no partial result). -/
theorem create_size_guard (cfg : Config) (N : ℕ) (raw : Fin N → Fin N → ℝ)
    (noise : Fin N → ℝ) :
    (create cfg N raw noise = .error .size ↔ cfg.n_atoms_max < N) ∧
    (N ≤ cfg.n_atoms_max → ∃ out, create cfg N raw noise = Except.ok out) := by
  have hok : ¬cfg.n_atoms_max < N →
      ∃ out, create cfg N raw noise = Except.ok out := by
    intro h'
    by_cases hp : cfg.permutation = Permutation.eigenspectrum
    · exact ⟨_, create_eigen cfg N raw noise h' hp⟩
    · by_cases hf : cfg.flatten = true
      · exact ⟨_, create_flat cfg N raw noise h' hp hf⟩
      · exact ⟨_, create_mat cfg N raw noise h' hp
          (by rwa [Bool.not_eq_true] at hf)⟩
  constructor
  · constructor
    · intro hc
      by_contra h
      obtain ⟨out, hout⟩ := hok h
      rw [hout] at hc
      simp at hc
    · intro h
      exact create_of_size cfg N raw noise h
  · intro h
    exact hok (not_lt.mpr h)

/-- Closed witness for C7: an oversized call raises `SizeError`, a fitting
call succeeds. -/
theorem create_size_guard_witness :
    create cfgNone2 3 rawOne3 noiseZero3 = .error .size ∧
    ∃ out, create cfgNone2 1 rawOne1 noiseZero1 = Except.ok out :=
  ⟨(create_size_guard cfgNone2 3 rawOne3 noiseZero3).1.mpr
      (by norm_num [cfgNone2]),
   (create_size_guard cfgNone2 1 rawOne1 noiseZero1).2
      (by norm_num [cfgNone2])⟩

/-- Row norms of the padded sorted matrix are non-increasing. -/
theorem rowNorm_pad_sortMatrix_le (nmax N : ℕ) (h : N ≤ nmax)
    (raw : Fin N → Fin N → ℝ) (i j : Fin nmax) (hij : i ≤ j) :
    rowNorm (padMat nmax N (sortMatrix raw)) j
      ≤ rowNorm (padMat nmax N (sortMatrix raw)) i := by
  rw [rowNorm_padMat nmax N h _ i, rowNorm_padMat nmax N h _ j]
  by_cases hj : (j : ℕ) < N
  · have hi : (i : ℕ) < N := lt_of_le_of_lt (Fin.le_def.mp hij) hj
    rw [dif_pos hi, dif_pos hj, rowNorm_sortMatrix, rowNorm_sortMatrix]
    exact sortPerm_antitone (rowNorm raw) ⟨i, hi⟩ ⟨j, hj⟩
      (Fin.mk_le_mk.mpr (Fin.le_def.mp hij))
  · rw [dif_neg hj]
    by_cases hi : (i : ℕ) < N
    · rw [dif_pos hi]
      exact rowNorm_nonneg _ _
    · rw [dif_neg hi]

/-- C8 (amended): under `permutation = sorted_l2` with `flatten = false`,
the row L2-norms of the output of `create` are non-increasing from the
first row to the last; and, provided the raw matrix's row norms are
pairwise distinct, the output is independent of the input atom ordering
(relabelling the atoms conjugates the raw interaction matrix and leaves the
descriptor unchanged). -/
theorem sorted_l2_descriptor (nmax N : ℕ) (h : N ≤ nmax)
    (raw : Fin N → Fin N → ℝ) (noise : Fin N → ℝ) :
    (∀ n M, create ⟨nmax, Permutation.sorted_l2, false, Option.none⟩ N raw noise
        = .ok (.mat n M) →
      ∀ i j : Fin n, i ≤ j → rowNorm M j ≤ rowNorm M i) ∧
    (Function.Injective (rowNorm raw) → ∀ ρ : Equiv.Perm (Fin N),
      create ⟨nmax, Permutation.sorted_l2, false, Option.none⟩ N
          (fun i j => raw (ρ i) (ρ j)) noise
        = create ⟨nmax, Permutation.sorted_l2, false, Option.none⟩ N raw noise) := by
  constructor
  · intro n M hc i j hij
    rw [create_mat ⟨nmax, Permutation.sorted_l2, false, Option.none⟩ N raw noise
      (not_lt.mpr h) (fun hc2 => Permutation.noConfusion hc2) rfl] at hc
    have h1 : DOut.mat nmax
        (padMat nmax N (permuteRaw Permutation.sorted_l2 N raw noise))
        = DOut.mat n M := by
      injection hc
    cases h1
    exact rowNorm_pad_sortMatrix_le nmax N h raw i j hij
  · intro hinj ρ
    rw [create_mat ⟨nmax, Permutation.sorted_l2, false, Option.none⟩ N
        (fun i j => raw (ρ i) (ρ j)) noise (not_lt.mpr h)
        (fun hc2 => Permutation.noConfusion hc2) rfl,
      create_mat ⟨nmax, Permutation.sorted_l2, false, Option.none⟩ N raw noise
        (not_lt.mpr h) (fun hc2 => Permutation.noConfusion hc2) rfl]
    exact congrArg (fun X => Except.ok (DOut.mat nmax (padMat nmax N X)))
      (sortMatrix_conj raw hinj ρ)

/-- Closed witness for C8 at a concrete configuration and structure. -/
theorem sorted_l2_descriptor_witness :
    (∀ n M, create ⟨1, Permutation.sorted_l2, false, Option.none⟩ 1 rawOne1
        noiseZero1 = .ok (.mat n M) →
      ∀ i j : Fin n, i ≤ j → rowNorm M j ≤ rowNorm M i) ∧
    (Function.Injective (rowNorm rawOne1) → ∀ ρ : Equiv.Perm (Fin 1),
      create ⟨1, Permutation.sorted_l2, false, Option.none⟩ 1
          (fun i j => rawOne1 (ρ i) (ρ j)) noiseZero1
        = create ⟨1, Permutation.sorted_l2, false, Option.none⟩ 1 rawOne1
            noiseZero1) :=
  sorted_l2_descriptor 1 1 (by norm_num) rawOne1 noiseZero1

/-- Counterexample to the permutation-invariance half of C8 as frozen: for
the tied-norm matrix `rawTie`, relabelling the two atoms changes the
`sorted_l2` descriptor, because the stable tie-break follows the input
order. -/
theorem sorted_l2_descriptor_counterexample :
    create cfgSorted2 2 rawTieSwap noiseZero2
      ≠ create cfgSorted2 2 rawTie noiseZero2 := by
  rw [create_mat cfgSorted2 2 rawTieSwap noiseZero2 (by norm_num [cfgSorted2])
      (by decide) rfl,
    create_mat cfgSorted2 2 rawTie noiseZero2 (by norm_num [cfgSorted2])
      (by decide) rfl]
  show Except.ok (DOut.mat 2 (padMat 2 2 (sortMatrix rawTieSwap)))
    ≠ Except.ok (DOut.mat 2 (padMat 2 2 (sortMatrix rawTie)))
  rw [sortMatrix_rawTieSwap, sortMatrix_rawTie, padMat_self 2 rawTieSwap,
    padMat_self 2 rawTie]
  intro hc
  have h2 : DOut.mat 2 rawTieSwap = DOut.mat 2 rawTie := by
    injection hc
  have h1 : rawTieSwap = rawTie := by
    injection h2 with h2a h2b
  have h4 := congrFun (congrFun h1 0) 0
  have h5 : rawTieSwap 0 0 = -1 := by
    unfold rawTieSwap rawTie
    norm_num [Equiv.swap_apply_left]
  have h6 : rawTie 0 0 = 1 := by
    unfold rawTie
    norm_num
  rw [h5, h6] at h4
  norm_num at h4

/-- C2 (amended): provided the raw matrix's row L2-norms are pairwise
distinct, applying the standalone `sort` to the output of `create` under
`permutation = random` equals, element for element, the output of `create`
under `permutation = sorted_l2` on the same structure (same `n_atoms_max`,
`flatten = false`), regardless of the noise vector drawn. -/
theorem random_sort_matches_sorted (nmax N : ℕ) (h : N ≤ nmax) (s : ℝ)
    (raw : Fin N → Fin N → ℝ) (noise : Fin N → ℝ)
    (hinj : Function.Injective (rowNorm raw)) :
    Except.map sortOutput
        (create ⟨nmax, Permutation.random, false, some s⟩ N raw noise)
      = create ⟨nmax, Permutation.sorted_l2, false, Option.none⟩ N raw noise := by
  rw [create_mat ⟨nmax, Permutation.random, false, some s⟩ N raw noise
      (not_lt.mpr h) (fun hc2 => Permutation.noConfusion hc2) rfl,
    create_mat ⟨nmax, Permutation.sorted_l2, false, Option.none⟩ N raw noise
      (not_lt.mpr h) (fun hc2 => Permutation.noConfusion hc2) rfl]
  exact congrArg (fun X => Except.ok (DOut.mat nmax X))
    (sortMatrix_padMat_conj nmax N h raw hinj
      (sortPerm (fun a => rowNorm raw a + noise a)))

/-- Closed witness for C2 at a concrete one-atom structure. -/
theorem random_sort_matches_sorted_witness :
    Except.map sortOutput
        (create ⟨1, Permutation.random, false, some 1⟩ 1 rawOne1 noiseZero1)
      = create ⟨1, Permutation.sorted_l2, false, Option.none⟩ 1 rawOne1
          noiseZero1 :=
  random_sort_matches_sorted 1 1 (by norm_num) 1 rawOne1 noiseZero1
    (fun a b _ => Subsingleton.elim a b)

/-- Counterexample to C2 as frozen: on the tied-norm matrix `rawTie` with
noise `(0, 10)`, the random strategy swaps the rows, the post-hoc `sort`
leaves the swapped matrix in place (the tie-break now follows the swapped
order), and the result differs from the `sorted_l2` descriptor at entry
`(0, 0)`. -/
theorem random_sort_matches_sorted_counterexample :
    Except.map sortOutput (create cfgRandom2 2 rawTie noiseTie)
      ≠ create cfgSorted2 2 rawTie noiseZero2 := by
  rw [create_mat cfgRandom2 2 rawTie noiseTie (by norm_num [cfgRandom2])
      (by decide) rfl,
    create_mat cfgSorted2 2 rawTie noiseZero2 (by norm_num [cfgSorted2])
      (by decide) rfl]
  show Except.ok (DOut.mat 2 (sortMatrix (padMat 2 2 (fun i j =>
      rawTie (sortPerm (fun a => rowNorm rawTie a + noiseTie a) i)
        (sortPerm (fun a => rowNorm rawTie a + noiseTie a) j)))))
    ≠ Except.ok (DOut.mat 2 (padMat 2 2 (sortMatrix rawTie)))
  rw [sortPerm_rawTie_noiseTie]
  show Except.ok (DOut.mat 2 (sortMatrix (padMat 2 2 rawTieSwap)))
    ≠ Except.ok (DOut.mat 2 (padMat 2 2 (sortMatrix rawTie)))
  rw [padMat_self 2 rawTieSwap, sortMatrix_rawTieSwap, sortMatrix_rawTie,
    padMat_self 2 rawTie]
  intro hc
  have h2 : DOut.mat 2 rawTieSwap = DOut.mat 2 rawTie := by
    injection hc
  have h1 : rawTieSwap = rawTie := by
    injection h2 with h2a h2b
  have h4 := congrFun (congrFun h1 0) 0
  have h5 : rawTieSwap 0 0 = -1 := by
    unfold rawTieSwap rawTie
    norm_num [Equiv.swap_apply_left]
  have h6 : rawTie 0 0 = 1 := by
    unfold rawTie
    norm_num
  rw [h5, h6] at h4
  norm_num at h4

/-- C9 (amended): the value returned by `create` depends only on the
configuration and the call's inputs — never on state left by earlier calls;
the configuration itself is never modified; and, for the `random` strategy,
the engine retains the un-padded length-`N` norm vector of the call in its
`_norm_vector` attribute after `create` returns (as the regression test
`test_norm_vector` demands). -/
theorem engine_state_behaviour (st : EngineState) (N : ℕ)
    (raw : Fin N → Fin N → ℝ) (noise : Fin N → ℝ) :
    ((createWithState st N raw noise).1 = create st.config N raw noise) ∧
    ((createWithState st N raw noise).2.config = st.config) ∧
    (∀ st' : EngineState, st'.config = st.config →
      (createWithState st' N raw noise).1 = (createWithState st N raw noise).1) ∧
    (st.config.permutation = Permutation.random →
      N ≤ st.config.n_atoms_max →
      (createWithState st N raw noise).2.norm_vector
        = some (List.ofFn (rowNorm raw)) ∧
      (List.ofFn (rowNorm raw)).length = N) := by
  refine ⟨rfl, ?_, ?_, ?_⟩
  · show (if st.config.n_atoms_max < N then st
      else match st.config.permutation with
        | .sorted_l2 => { st with norm_vector := some (List.ofFn (rowNorm raw)) }
        | .random => { st with norm_vector := some (List.ofFn (rowNorm raw)) }
        | _ => st).config = st.config
    by_cases h : st.config.n_atoms_max < N
    · rw [if_pos h]
    · rw [if_neg h]
      cases hp : st.config.permutation <;> rfl
  · intro st' hst
    show create st'.config N raw noise = create st.config N raw noise
    rw [hst]
  · intro hp hn
    refine ⟨?_, by simp⟩
    show (if st.config.n_atoms_max < N then st
      else match st.config.permutation with
        | .sorted_l2 => { st with norm_vector := some (List.ofFn (rowNorm raw)) }
        | .random => { st with norm_vector := some (List.ofFn (rowNorm raw)) }
        | _ => st).norm_vector = some (List.ofFn (rowNorm raw))
    rw [if_neg (not_lt.mpr hn), hp]

/-- Closed witness for C9 at a concrete engine state and structure. -/
theorem engine_state_behaviour_witness :
    ((createWithState ⟨cfgRandom1, Option.none⟩ 1 rawOne1 noiseZero1).1
      = create cfgRandom1 1 rawOne1 noiseZero1) ∧
    ((createWithState ⟨cfgRandom1, Option.none⟩ 1 rawOne1 noiseZero1).2.config
      = cfgRandom1) ∧
    ((createWithState ⟨cfgRandom1, Option.none⟩ 1 rawOne1
        noiseZero1).2.norm_vector = some (List.ofFn (rowNorm rawOne1)) ∧
      (List.ofFn (rowNorm rawOne1)).length = 1) := by
  have h := engine_state_behaviour ⟨cfgRandom1, Option.none⟩ 1 rawOne1 noiseZero1
  exact ⟨h.1, h.2.1, h.2.2.2 rfl (by norm_num [cfgRandom1])⟩

/-- Counterexample to C9 as frozen: after a successful `random` `create`,
the engine state is not reduced to the bare configuration — the norm
vector of the call remains stored (the regression test `test_norm_vector`
asserts precisely this retention). -/
theorem engine_state_counterexample :
    (createWithState ⟨cfgRandom1, Option.none⟩ 1 rawOne1
        noiseZero1).2.norm_vector ≠ Option.none := by
  simp [createWithState, cfgRandom1]

end Dscribe
